import Mathlib

/-!
# nexvpn native helper: fork/exec, terminate, liveness

Shallow embedding of `src-tauri/gen/android/app/src/main/jni/native_helper.c`.

The C file has three JNI entry points.  Each is translated statement by
statement into a Lean function that threads an explicit state and appends one
`Event` to a call log for every external call it makes (JNI functions, libc,
system calls), in program order.  The results of the external calls are not
computed by the program; they are supplied by the environment:

* for `startProcess` by a `World` of oracles (does the k-th string conversion
  succeed, does `calloc` succeed, what does `fork` return, does `execv`
  replace the image);
* for `killProcess` and `isProcessAlive` by an `OS σ` record giving `kill` and
  `waitpid` as transformers of an arbitrary kernel state `σ`.
-/

namespace NativeHelper

/-! ## Constants of the platform headers -/

/-- Value of `SIGTERM` in the Linux and bionic `<signal.h>`. -/
def SIGTERM : Int := 15

/-- Value of `SIGKILL` in the Linux and bionic `<signal.h>`. -/
def SIGKILL : Int := 9

/-- Value of `WNOHANG` in the Linux and bionic `<sys/wait.h>`. -/
def WNOHANG : Int := 1

/-- Value of `JNI_TRUE` (`jboolean` is embedded as `Bool`). -/
def JNI_TRUE : Bool := true

/-- Value of `JNI_FALSE`. -/
def JNI_FALSE : Bool := false

/-! ## Machine integers -/

/-- Data model of the target: 32-bit or 64-bit pointers and `size_t`. -/
inductive ABI where
  | ilp32
  | lp64
deriving DecidableEq, Repr

/-- Width of `size_t` in bits. -/
def ABI.sizeBits : ABI → Nat
  | .ilp32 => 32
  | .lp64 => 64

/-- Value of `sizeof(char *)`. -/
def ABI.sizeofPtr : ABI → Nat
  | .ilp32 => 4
  | .lp64 => 8

/-- Two-complement wrap of a mathematical integer into the C `int` range
`[-2^31, 2^31)`. -/
def wrapInt32 (z : Int) : Int := (z + 2 ^ 31) % 2 ^ 32 - 2 ^ 31

/-- Conversion of an `int` to `size_t` (reduction modulo `2^sizeBits`). -/
def toSizeT (abi : ABI) (z : Int) : Nat := (z % 2 ^ abi.sizeBits).toNat

/-! ## Values crossing the JNI boundary -/

/-- A non-NULL `char *` obtained from the allocator: the address of the buffer
and the text it holds.  `Option CStr` is a possibly-NULL `char *`. -/
structure CStr where
  addr : Nat
  chars : String
deriving DecidableEq, Repr

/-- A `jobjectArray` of `java.lang.String`: a Java array has fewer than `2^31`
elements, since its length is a `jsize`. -/
structure JObjectArray where
  elems : List String
  size_lt : elems.length < 2 ^ 31

/-! ## Call log -/

/-- One external call made by the native code, with its arguments and, where
the code can observe it, its result. -/
inductive Event where
  | GetStringUTFChars (str : String) (ret : Option CStr)
  | GetArrayLength (ret : Nat)
  | GetObjectArrayElement (index : Nat)
  | ReleaseStringUTFChars (str : String) (utf : Option CStr)
  | calloc (nmemb size : Nat) (ret : Option Nat)
  | free (ptr : Nat)
  | fork (ret : Int)
  | execv (path : CStr) (argv : List (Option CStr))
  | _exit (status : Int)
  | kill (pid sig ret : Int)
  | waitpid (pid options ret : Int)
deriving DecidableEq, Repr

/-! ## `startProcess` -/

/-- What `fork` returns in the process whose control flow is followed: `0` in
the new child, the positive pid of the child in the parent, `-1` when no
process could be created. -/
inductive ForkRet where
  | child
  | parent (pid : ℕ+)
  | failed
deriving DecidableEq

/-- The `pid_t` value of a `fork` result. -/
def ForkRet.val : ForkRet → Int
  | .child => 0
  | .parent pid => ((pid : Nat) : Int)
  | .failed => -1

/-- Environment of one `startProcess` call.  `utfOk k` tells whether the k-th
call of `GetStringUTFChars` (counted from 0 in call order) succeeds;
`callocOk` whether the allocator has memory for the argv block; `fork` is the
result of `fork` in the followed process; `execvOk` whether `execv` replaces
the process image. -/
structure World where
  abi : ABI
  utfOk : Nat → Bool
  callocOk : Bool
  fork : ForkRet
  execvOk : Bool

/-- Program state during `startProcess`: the call log, the number of
`GetStringUTFChars` calls made so far, and the next fresh buffer address. -/
structure St where
  trace : List Event
  utfCalls : Nat
  next : Nat

/-- State at entry. -/
def St.init : St := ⟨[], 0, 1⟩

/-- How one run of `startProcess` ends in the followed process. -/
inductive Outcome where
  | returned (v : Int)
  | replaced
  | exited (status : Int)
deriving DecidableEq, Repr

/-- Call log and outcome of a run. -/
structure Run where
  trace : List Event
  outcome : Outcome

/-- JNI `GetStringUTFChars(env, str, NULL)`: on success a fresh buffer holding
the text of `str`, on failure NULL. -/
def GetStringUTFChars (w : World) (str : String) (s : St) : Option CStr × St :=
  if w.utfOk s.utfCalls then
    (some ⟨s.next, str⟩,
      ⟨s.trace ++ [.GetStringUTFChars str (some ⟨s.next, str⟩)], s.utfCalls + 1, s.next + 1⟩)
  else
    (none, ⟨s.trace ++ [.GetStringUTFChars str none], s.utfCalls + 1, s.next⟩)

/-- JNI `ReleaseStringUTFChars(env, str, utf)`. -/
def ReleaseStringUTFChars (str : String) (utf : Option CStr) (s : St) : St :=
  ⟨s.trace ++ [.ReleaseStringUTFChars str utf], s.utfCalls, s.next⟩

/-- JNI `GetArrayLength(env, array)`. -/
def GetArrayLength (jargs : JObjectArray) (s : St) : Nat × St :=
  (jargs.elems.length, ⟨s.trace ++ [.GetArrayLength jargs.elems.length], s.utfCalls, s.next⟩)

/-- JNI `GetObjectArrayElement(env, array, index)`; the code only calls it
with `index` below the array length. -/
def GetObjectArrayElement (jargs : JObjectArray) (index : Nat) (s : St) : String × St :=
  (jargs.elems.getD index "", ⟨s.trace ++ [.GetObjectArrayElement index], s.utfCalls, s.next⟩)

/-- Library `calloc(nmemb, size)`: NULL when `nmemb * size` does not fit
`size_t` or when the allocator is out of memory, else a fresh address. -/
def calloc (w : World) (nmemb size : Nat) (s : St) : Option Nat × St :=
  if nmemb * size < 2 ^ w.abi.sizeBits ∧ w.callocOk = true then
    (some s.next, ⟨s.trace ++ [.calloc nmemb size (some s.next)], s.utfCalls, s.next + 1⟩)
  else
    (none, ⟨s.trace ++ [.calloc nmemb size none], s.utfCalls, s.next⟩)

/-- Library `free(ptr)`. -/
def free (ptr : Nat) (s : St) : St :=
  ⟨s.trace ++ [.free ptr], s.utfCalls, s.next⟩

/-- System call `fork()`. -/
def fork (w : World) (s : St) : Int × St :=
  (w.fork.val, ⟨s.trace ++ [.fork w.fork.val], s.utfCalls, s.next⟩)

/-- System call `execv(path, argv)`; it returns only when it failed. -/
def execv (path : CStr) (argv : List (Option CStr)) (s : St) : St :=
  ⟨s.trace ++ [.execv path argv], s.utfCalls, s.next⟩

/-- System call `_exit(status)`. -/
def _exit (status : Int) (s : St) : St :=
  ⟨s.trace ++ [._exit status], s.utfCalls, s.next⟩

/-- The loop of lines 31-34, `for (int i = 0; i < argc; i++)`, with `n`
iterations left and loop counter `i`:
`argv[i + 1] = GetStringUTFChars(GetObjectArrayElement(jargs, i))`. -/
def fillArgs (w : World) (jargs : JObjectArray) :
    Nat → Nat → List (Option CStr) × St → List (Option CStr) × St
  | 0, _, st => st
  | n + 1, i, (argv, s) =>
    let (arg, s1) := GetObjectArrayElement jargs i s
    let (utf, s2) := GetStringUTFChars w arg s1
    fillArgs w jargs n (i + 1) (argv.set (i + 1) utf, s2)

/-- The loop of lines 46-49, with `n` iterations left and loop counter `i`:
`ReleaseStringUTFChars(GetObjectArrayElement(jargs, i), argv[i + 1])`. -/
def releaseArgs (jargs : JObjectArray) (argv : List (Option CStr)) : Nat → Nat → St → St
  | 0, _, s => s
  | n + 1, i, s =>
    let (arg, s1) := GetObjectArrayElement jargs i s
    let s2 := ReleaseStringUTFChars arg (argv.getD (i + 1) none) s1
    releaseArgs jargs argv n (i + 1) s2

/-- The function `Java_com_horusvpn_nexvpn_NativeHelper_startProcess`.
`argc + 2` is computed in `int` (wrapped) and converted to `size_t` for
`calloc`, which zero-fills the block. -/
def startProcess (w : World) (jpath : String) (jargs : JObjectArray) : Run :=
  match GetStringUTFChars w jpath St.init with
  | (none, s0) => ⟨s0.trace, .returned (-1)⟩
  | (some path, s0) =>
    let (argc, s1) := GetArrayLength jargs s0
    let nmemb := toSizeT w.abi (wrapInt32 ((argc : Int) + 2))
    match calloc w nmemb w.abi.sizeofPtr s1 with
    | (none, s2) =>
      let s3 := ReleaseStringUTFChars jpath (some path) s2
      ⟨s3.trace, .returned (-1)⟩
    | (some block, s2) =>
      let argv0 : List (Option CStr) := (List.replicate nmemb none).set 0 (some path)
      let (argv1, s3) := fillArgs w jargs argc 0 (argv0, s2)
      let argv := argv1.set (argc + 1) none
      let (pid, s4) := fork w s3
      if pid = 0 then
        let s5 := execv path argv s4
        if w.execvOk then ⟨s5.trace, .replaced⟩
        else
          let s6 := _exit 127 s5
          ⟨s6.trace, .exited 127⟩
      else
        let s5 := releaseArgs jargs argv argc 0 s4
        let s6 := free block s5
        let s7 := ReleaseStringUTFChars jpath (some path) s6
        ⟨s7.trace, .returned pid⟩

/-! ## `killProcess` and `isProcessAlive` -/

/-- The two system calls used on an existing child, as transformers of a
kernel state `σ`; each returns the value the C code sees. -/
structure OS (σ : Type) where
  kill : σ → Int → Int → Int × σ
  waitpid : σ → Int → Int → Int × σ

/-- Kernel state together with the log of calls issued so far. -/
structure Proc (σ : Type) where
  os : σ
  trace : List Event

/-- The function `Java_com_horusvpn_nexvpn_NativeHelper_killProcess`
(returns `void`). -/
def killProcess {σ : Type} (sys : OS σ) (pid : Int) (p : Proc σ) : Proc σ :=
  if pid > 0 then
    let (r1, os1) := sys.kill p.os pid SIGTERM
    let (r2, os2) := sys.waitpid os1 pid WNOHANG
    ⟨os2, p.trace ++ [.kill pid SIGTERM r1, .waitpid pid WNOHANG r2]⟩
  else p

/-- The function `Java_com_horusvpn_nexvpn_NativeHelper_isProcessAlive`. -/
def isProcessAlive {σ : Type} (sys : OS σ) (pid : Int) (p : Proc σ) : Bool × Proc σ :=
  if pid ≤ 0 then (JNI_FALSE, p)
  else
    let (ret, os1) := sys.waitpid p.os pid WNOHANG
    let p1 : Proc σ := ⟨os1, p.trace ++ [.waitpid pid WNOHANG ret]⟩
    if ret = 0 then (JNI_TRUE, p1)
    else (JNI_FALSE, p1)

/-! ## A child table for the kernel side of `waitpid`

The kernel is not part of the repository.  For the double-query property the
kernel state is taken to be a table of the children of the calling process, in
which a non-blocking wait on an exited, not yet reaped child returns its pid
and removes it, a wait on an absent child returns an error, and a wait on a
running child returns 0. -/

/-- State of one child of the calling process. -/
inductive ChildState where
  | running
  | zombie (status : Int)
deriving DecidableEq, Repr

/-- The children of the calling process that have not been reaped, by pid. -/
abbrev ChildTable := List (Int × ChildState)

/-- Removal of the entry of `pid` (the child is reaped). -/
def ChildTable.reap (t : ChildTable) (pid : Int) : ChildTable :=
  t.filter fun c => !(c.1 == pid)

/-- Non-blocking `waitpid(pid, &status, WNOHANG)` for `pid > 0` on the child
table.  The options are not inspected: only the non-blocking query is
modelled. -/
def ChildTable.waitpid (t : ChildTable) (pid _options : Int) : Int × ChildTable :=
  match t.lookup pid with
  | none => (-1, t)
  | some .running => (0, t)
  | some (.zombie _) => (pid, t.reap pid)

/-- Call `kill(pid, sig)` for `pid > 0` on the child table: `0` when the child
exists, `-1` otherwise.  Delivery is asynchronous, so the table is unchanged at
the time the call returns. -/
def ChildTable.kill (t : ChildTable) (pid _sig : Int) : Int × ChildTable :=
  match t.lookup pid with
  | none => (-1, t)
  | some _ => (0, t)

/-- The child table as an `OS`. -/
def childOS : OS ChildTable := ⟨ChildTable.kill, ChildTable.waitpid⟩

/-! ## Observations on a call log -/

/-- The JNI calls that only marshal strings in and out. -/
def Event.isMarshal : Event → Bool
  | .GetStringUTFChars _ _ => true
  | .GetArrayLength _ => true
  | .GetObjectArrayElement _ => true
  | .ReleaseStringUTFChars _ _ => true
  | _ => false

/-- The return value of a `fork` call, `none` for any other call. -/
def Event.forkRetOf : Event → Option Int
  | .fork r => some r
  | _ => none

/-- Return values of the `fork` calls in a log, in order. -/
def forkRets (t : List Event) : List Int := t.filterMap Event.forkRetOf

/-- Number of children created: `fork` calls that returned a positive pid. -/
def children (t : List Event) : Nat := ((forkRets t).filter fun r => decide (0 < r)).length

/-- The arguments of an `execv` call, `none` for any other call. -/
def Event.execvOf : Event → Option (CStr × List (Option CStr))
  | .execv p a => some (p, a)
  | _ => none

/-- The `execv` calls in a log, in order. -/
def execvCalls (t : List Event) : List (CStr × List (Option CStr)) := t.filterMap Event.execvOf

/-- The text of each entry of an argv vector (`none` for a NULL entry). -/
def argvText (argv : List (Option CStr)) : List (Option String) :=
  argv.map fun e => e.map CStr.chars

/-- The arguments a program started with an argv of the given text receives
after `argv[0]`: the entries from index 1 up to the first NULL. -/
def receivedArgs (text : List (Option String)) : List String :=
  (text.tail.takeWhile Option.isSome).filterMap id

/-- Effect of one call on the list of buffers held by the function, kept in
order of acquisition: an acquisition adds a fresh address, a release removes a
held one.  The result is
`none` when the call acquires an address already held, releases an address
that is not held, or is a `ReleaseStringUTFChars` on NULL, that is a release
for a string whose conversion did not yield a buffer. -/
def ledgerStep (live : List Nat) : Event → Option (List Nat)
  | .GetStringUTFChars _ (some p) => if p.addr ∈ live then none else some (live ++ [p.addr])
  | .calloc _ _ (some a) => if a ∈ live then none else some (live ++ [a])
  | .ReleaseStringUTFChars _ (some p) => if p.addr ∈ live then some (live.erase p.addr) else none
  | .ReleaseStringUTFChars _ none => none
  | .free a => if a ∈ live then some (live.erase a) else none
  | _ => some live

/-- The buffers held after a log, starting from `live`, or `none` when some
call of the log breaks the acquire/release discipline. -/
def ledger : List Event → List Nat → Option (List Nat)
  | [], live => some live
  | e :: t, live => (ledgerStep live e).bind (ledger t)

/-- Every buffer acquired in the log is released exactly once later in the
log, and nothing else is released. -/
def balanced (t : List Event) : Bool := ledger t [] == some []

/-! ## Concrete environments and inputs used in the examples -/

/-- Every conversion and the allocation succeed; `fork` returns `f`, `execv`
fails. -/
def worldOk (f : ForkRet) : World := ⟨.lp64, fun _ => true, true, f, false⟩

/-- As `worldOk`, but the conversion of the first argument (call 1) fails. -/
def worldArgFails (f : ForkRet) : World := ⟨.lp64, fun k => k != 1, true, f, false⟩

/-- No conversion succeeds. -/
def worldPathFails (f : ForkRet) : World := ⟨.lp64, fun _ => false, true, f, false⟩

/-- The argument array `["a", "b c"]`. -/
def argsAB : JObjectArray := ⟨["a", "b c"], by decide⟩

/-- The argument array `["a"]`. -/
def argsA : JObjectArray := ⟨["a"], by decide⟩

/-- The empty argument array. -/
def argsNone : JObjectArray := ⟨[], by decide⟩

/-- A child table with the exited child 7 and the running child 8. -/
def tableEx : ChildTable := [(7, .zombie 0), (8, .running)]

/-! ## `startProcess`: structure of a run -/

theorem nmemb_eq (abi : ABI) (n : Nat) (hn : n < 2 ^ 31)
    (h : toSizeT abi (wrapInt32 ((n : Int) + 2)) * abi.sizeofPtr < 2 ^ abi.sizeBits) :
    toSizeT abi (wrapInt32 ((n : Int) + 2)) = n + 2 := by
  cases abi <;> simp only [toSizeT, wrapInt32, ABI.sizeofPtr, ABI.sizeBits] at h ⊢ <;>
    norm_num at hn h ⊢ <;> omega

theorem nmemb_eq_of_small (abi : ABI) (n : Nat) (hn : n + 2 < 2 ^ 31) :
    toSizeT abi (wrapInt32 ((n : Int) + 2)) = n + 2 := by
  cases abi <;> simp only [toSizeT, wrapInt32, ABI.sizeBits] <;>
    norm_num at hn ⊢ <;> omega

theorem fillArgs_succ (w : World) (jargs : JObjectArray) (n i : Nat)
    (argv : List (Option CStr)) (s : St) :
    fillArgs w jargs (n + 1) i (argv, s)
      = fillArgs w jargs n (i + 1)
          (argv.set (i + 1) (GetStringUTFChars w (jargs.elems.getD i "")
              (GetObjectArrayElement jargs i s).2).1,
            (GetStringUTFChars w (jargs.elems.getD i "") (GetObjectArrayElement jargs i s).2).2) :=
  rfl

theorem GetStringUTFChars_trace (w : World) (str : String) (s : St) :
    (GetStringUTFChars w str s).2.trace
      = s.trace ++ [Event.GetStringUTFChars str (GetStringUTFChars w str s).1] := by
  unfold GetStringUTFChars; split <;> rfl

theorem GetStringUTFChars_utfCalls (w : World) (str : String) (s : St) :
    (GetStringUTFChars w str s).2.utfCalls = s.utfCalls + 1 := by
  unfold GetStringUTFChars; split <;> rfl

theorem GetStringUTFChars_ok (w : World) (str : String) (s : St)
    (h : w.utfOk s.utfCalls = true) :
    (GetStringUTFChars w str s).1 = some ⟨s.next, str⟩ := by
  simp [GetStringUTFChars, h]

theorem fillArgs_trace (w : World) (jargs : JObjectArray) (n : Nat) :
    ∀ (i : Nat) (argv : List (Option CStr)) (s : St),
      ∃ evs, (fillArgs w jargs n i (argv, s)).2.trace = s.trace ++ evs ∧
        ∀ e ∈ evs, Event.isMarshal e = true := by
  induction n with
  | zero => intro i argv s; exact ⟨[], by simp [fillArgs], by simp⟩
  | succ n ih =>
    intro i argv s
    rw [fillArgs_succ]
    obtain ⟨evs, h1, h2⟩ := ih (i + 1) (argv.set (i + 1) (GetStringUTFChars w
      (jargs.elems.getD i "") (GetObjectArrayElement jargs i s).2).1)
      (GetStringUTFChars w (jargs.elems.getD i "") (GetObjectArrayElement jargs i s).2).2
    refine ⟨Event.GetObjectArrayElement i :: Event.GetStringUTFChars (jargs.elems.getD i "")
      (GetStringUTFChars w (jargs.elems.getD i "") (GetObjectArrayElement jargs i s).2).1
        :: evs, ?_, ?_⟩
    · rw [h1, GetStringUTFChars_trace]
      simp [GetObjectArrayElement]
    · intro e he
      simp only [List.mem_cons] at he
      rcases he with rfl | rfl | he
      · rfl
      · rfl
      · exact h2 e he


theorem GetStringUTFChars_next_ok (w : World) (str : String) (s : St)
    (h : w.utfOk s.utfCalls = true) :
    (GetStringUTFChars w str s).2.next = s.next + 1 := by
  simp [GetStringUTFChars, h]

theorem fillArgs_length (w : World) (jargs : JObjectArray) (n : Nat) :
    ∀ (i : Nat) (argv : List (Option CStr)) (s : St),
      (fillArgs w jargs n i (argv, s)).1.length = argv.length := by
  induction n with
  | zero => intro i argv s; rfl
  | succ n ih => intro i argv s; rw [fillArgs_succ, ih]; simp

theorem fillArgs_getElem?_outside (w : World) (jargs : JObjectArray) (n : Nat) :
    ∀ (i : Nat) (argv : List (Option CStr)) (s : St) (j : Nat),
      j < i + 1 ∨ i + 1 + n ≤ j → (fillArgs w jargs n i (argv, s)).1[j]? = argv[j]? := by
  induction n with
  | zero => intro i argv s j _; rfl
  | succ n ih =>
    intro i argv s j hj
    rw [fillArgs_succ, ih _ _ _ _ (by omega), List.getElem?_set_ne (by omega)]

theorem fillArgs_getElem?_inside (w : World) (jargs : JObjectArray) (n : Nat) :
    ∀ (i : Nat) (argv : List (Option CStr)) (s : St) (j : Nat),
      (∀ k, s.utfCalls ≤ k → k < s.utfCalls + n → w.utfOk k = true) →
      i + 1 ≤ j → j < i + 1 + n → j < argv.length →
      (fillArgs w jargs n i (argv, s)).1[j]?
        = some (some ⟨s.next + (j - (i + 1)), jargs.elems.getD (j - 1) ""⟩) := by
  induction n with
  | zero => intro i argv s j _ h1 h2; omega
  | succ n ih =>
    intro i argv s j hok h1 h2 h3
    have hk : w.utfOk (GetObjectArrayElement jargs i s).2.utfCalls = true :=
      hok s.utfCalls (Nat.le_refl _) (by omega)
    rw [fillArgs_succ]
    by_cases hj : j = i + 1
    · subst hj
      rw [fillArgs_getElem?_outside _ _ _ _ _ _ _ (by omega), List.getElem?_set_self h3,
        GetStringUTFChars_ok _ _ _ hk]
      simp [GetObjectArrayElement]
    · rw [ih (i + 1) _ _ j ?_ (by omega) (by omega) (by simpa using h3),
        GetStringUTFChars_next_ok _ _ _ hk]
      · have : s.next + 1 + (j - (i + 1 + 1)) = s.next + (j - (i + 1)) := by omega
        simp [GetObjectArrayElement, this]
      · intro k hk1 hk2
        rw [GetStringUTFChars_utfCalls] at hk1 hk2
        exact hok k (by simp [GetObjectArrayElement] at hk1; omega)
          (by simp [GetObjectArrayElement] at hk2; omega)


theorem releaseArgs_succ (jargs : JObjectArray) (argv : List (Option CStr)) (n i : Nat)
    (s : St) :
    releaseArgs jargs argv (n + 1) i s
      = releaseArgs jargs argv n (i + 1) (ReleaseStringUTFChars (jargs.elems.getD i "")
          (argv.getD (i + 1) none) (GetObjectArrayElement jargs i s).2) :=
  rfl

theorem releaseArgs_trace (jargs : JObjectArray) (argv : List (Option CStr)) (n : Nat) :
    ∀ (i : Nat) (s : St),
      ∃ evs, (releaseArgs jargs argv n i s).trace = s.trace ++ evs ∧
        ∀ e ∈ evs, Event.isMarshal e = true := by
  induction n with
  | zero => intro i s; exact ⟨[], by simp [releaseArgs], by simp⟩
  | succ n ih =>
    intro i s
    obtain ⟨evs, h1, h2⟩ := ih (i + 1) (ReleaseStringUTFChars (jargs.elems.getD i "")
      (argv.getD (i + 1) none) (GetObjectArrayElement jargs i s).2)
    refine ⟨Event.GetObjectArrayElement i :: Event.ReleaseStringUTFChars
      (jargs.elems.getD i "") (argv.getD (i + 1) none) :: evs, ?_, ?_⟩
    · rw [releaseArgs_succ, h1]
      simp [GetObjectArrayElement, ReleaseStringUTFChars]
    · intro e he
      simp only [List.mem_cons] at he
      rcases he with rfl | rfl | he
      · rfl
      · rfl
      · exact h2 e he

theorem ledger_append (a b : List Event) :
    ∀ live, ledger (a ++ b) live = (ledger a live).bind (ledger b) := by
  induction a with
  | nil => intro live; simp [ledger]
  | cons e a ih =>
    intro live
    simp only [List.cons_append, ledger]
    cases ledgerStep live e <;> simp [ih]

theorem fillArgs_ledger (w : World) (jargs : JObjectArray) (n : Nat) :
    ∀ (i : Nat) (argv : List (Option CStr)) (s : St) (l0 live : List Nat),
      (∀ k, s.utfCalls ≤ k → k < s.utfCalls + n → w.utfOk k = true) →
      (∀ a ∈ live, a < s.next) →
      ledger s.trace l0 = some live →
      ledger (fillArgs w jargs n i (argv, s)).2.trace l0
        = some (live ++ List.range' s.next n) := by
  induction n with
  | zero => intro i argv s l0 live _ _ h; simpa [fillArgs] using h
  | succ n ih =>
    intro i argv s l0 live hok hfresh hl
    have hk : w.utfOk (GetObjectArrayElement jargs i s).2.utfCalls = true :=
      hok s.utfCalls (Nat.le_refl _) (by omega)
    have hnot : s.next ∉ live := fun hmem => Nat.lt_irrefl _ (hfresh _ hmem)
    rw [fillArgs_succ, ih (i + 1) _ _ l0 (live ++ [s.next])]
    · rw [GetStringUTFChars_next_ok _ _ _ hk]
      simp [GetObjectArrayElement, List.range'_succ]
    · intro k hk1 hk2
      rw [GetStringUTFChars_utfCalls] at hk1 hk2
      exact hok k (by simp [GetObjectArrayElement] at hk1; omega)
        (by simp [GetObjectArrayElement] at hk2; omega)
    · intro a ha
      rw [GetStringUTFChars_next_ok _ _ _ hk]
      rcases List.mem_append.1 ha with ha | ha
      · have := hfresh a ha
        simp only [GetObjectArrayElement]; omega
      · simp only [List.mem_singleton] at ha
        simp only [GetObjectArrayElement]; omega
    · rw [GetStringUTFChars_trace, GetStringUTFChars_ok _ _ _ hk]
      simp only [GetObjectArrayElement, List.append_assoc]
      rw [ledger_append, hl]
      simp [ledger, ledgerStep, hnot]

theorem releaseArgs_ledger (jargs : JObjectArray) (argv : List (Option CStr)) (n : Nat) :
    ∀ (i : Nat) (s : St) (l0 front : List Nat),
      (∀ j, i + 1 ≤ j → j ≤ i + n → ∃ str, argv[j]? = some (some ⟨2 + j, str⟩)) →
      (∀ a ∈ front, a < 3 + i) →
      ledger s.trace l0 = some (front ++ List.range' (3 + i) n) →
      ledger (releaseArgs jargs argv n i s).trace l0 = some front := by
  induction n with
  | zero => intro i s l0 front _ _ h; simpa [releaseArgs] using h
  | succ n ih =>
    intro i s l0 front hargv hfresh hl
    obtain ⟨str, hstr⟩ := hargv (i + 1) (Nat.le_refl _) (by omega)
    have hnot : 3 + i ∉ front := fun hmem => Nat.lt_irrefl _ (hfresh _ hmem)
    have h21 : 2 + (i + 1) = 3 + i := by omega
    rw [releaseArgs_succ]
    apply ih (i + 1) _ l0 front
    · intro j hj1 hj2
      exact hargv j (by omega) (by omega)
    · intro a ha
      have := hfresh a ha
      omega
    · simp only [ReleaseStringUTFChars, GetObjectArrayElement, List.append_assoc]
      have hget : argv.getD (i + 1) none = some ⟨3 + i, str⟩ := by
        rw [List.getD_eq_getElem?_getD, hstr, h21]; rfl
      rw [ledger_append, hl, hget]
      have h31 : 3 + (i + 1) = 3 + i + 1 := by omega
      simp [ledger, ledgerStep, hnot, List.range'_succ, List.erase_append_right, h31]

/-- The three ways a run of `startProcess` can go, with the call log of each. -/
theorem startProcess_run (w : World) (jpath : String) (jargs : JObjectArray) :
    (w.utfOk 0 = false ∧
      (startProcess w jpath jargs).trace = [Event.GetStringUTFChars jpath none] ∧
      (startProcess w jpath jargs).outcome = .returned (-1)) ∨
    (w.utfOk 0 = true ∧
      ¬ (toSizeT w.abi (wrapInt32 ((jargs.elems.length : Int) + 2)) * w.abi.sizeofPtr
          < 2 ^ w.abi.sizeBits ∧ w.callocOk = true) ∧
      (∃ nmemb, (startProcess w jpath jargs).trace
        = [Event.GetStringUTFChars jpath (some ⟨1, jpath⟩),
            Event.GetArrayLength jargs.elems.length,
            Event.calloc nmemb w.abi.sizeofPtr none,
            Event.ReleaseStringUTFChars jpath (some ⟨1, jpath⟩)]) ∧
      (startProcess w jpath jargs).outcome = .returned (-1)) ∨
    (w.utfOk 0 = true ∧ w.callocOk = true ∧
      ∃ (fillEvs : List Event) (argv : List (Option CStr)),
        (∀ e ∈ fillEvs, Event.isMarshal e = true) ∧
        argv.length = jargs.elems.length + 2 ∧
        argv[0]? = some (some ⟨1, jpath⟩) ∧
        argv[jargs.elems.length + 1]? = some none ∧
        ((∀ k, 1 ≤ k → k ≤ jargs.elems.length → w.utfOk k = true) →
          ∀ j, 1 ≤ j → j ≤ jargs.elems.length →
            argv[j]? = some (some ⟨2 + j, jargs.elems.getD (j - 1) ""⟩)) ∧
        ((∀ k, 1 ≤ k → k ≤ jargs.elems.length → w.utfOk k = true) →
          ledger ([Event.GetStringUTFChars jpath (some ⟨1, jpath⟩),
              Event.GetArrayLength jargs.elems.length,
              Event.calloc (jargs.elems.length + 2) w.abi.sizeofPtr (some 2)] ++ fillEvs) []
            = some ([1, 2] ++ List.range' 3 jargs.elems.length)) ∧
        ((w.fork = .child ∧ w.execvOk = true ∧
            (startProcess w jpath jargs).trace
              = [Event.GetStringUTFChars jpath (some ⟨1, jpath⟩),
                  Event.GetArrayLength jargs.elems.length,
                  Event.calloc (jargs.elems.length + 2) w.abi.sizeofPtr (some 2)]
                ++ fillEvs ++ [Event.fork 0, Event.execv ⟨1, jpath⟩ argv] ∧
            (startProcess w jpath jargs).outcome = .replaced) ∨
          (w.fork = .child ∧ w.execvOk = false ∧
            (startProcess w jpath jargs).trace
              = [Event.GetStringUTFChars jpath (some ⟨1, jpath⟩),
                  Event.GetArrayLength jargs.elems.length,
                  Event.calloc (jargs.elems.length + 2) w.abi.sizeofPtr (some 2)]
                ++ fillEvs ++ [Event.fork 0, Event.execv ⟨1, jpath⟩ argv, Event._exit 127] ∧
            (startProcess w jpath jargs).outcome = .exited 127) ∨
          (w.fork.val ≠ 0 ∧
            (∃ relEvs : List Event, (∀ e ∈ relEvs, Event.isMarshal e = true) ∧
              (startProcess w jpath jargs).trace
                = [Event.GetStringUTFChars jpath (some ⟨1, jpath⟩),
                    Event.GetArrayLength jargs.elems.length,
                    Event.calloc (jargs.elems.length + 2) w.abi.sizeofPtr (some 2)]
                  ++ fillEvs ++ [Event.fork w.fork.val] ++ relEvs
                  ++ [Event.free 2, Event.ReleaseStringUTFChars jpath (some ⟨1, jpath⟩)] ∧
              ((∀ k, 1 ≤ k → k ≤ jargs.elems.length → w.utfOk k = true) →
                ledger ([Event.GetStringUTFChars jpath (some ⟨1, jpath⟩),
                    Event.GetArrayLength jargs.elems.length,
                    Event.calloc (jargs.elems.length + 2) w.abi.sizeofPtr (some 2)]
                  ++ fillEvs ++ [Event.fork w.fork.val] ++ relEvs) [] = some [1, 2])) ∧
            (startProcess w jpath jargs).outcome = .returned w.fork.val))) := by
  by_cases h0 : w.utfOk 0 = true
  swap
  · left
    have h0 : w.utfOk 0 = false := by simpa using h0
    simp [startProcess, GetStringUTFChars, St.init, h0]
  right
  have hG : GetStringUTFChars w jpath St.init
      = (some ⟨1, jpath⟩, ⟨[Event.GetStringUTFChars jpath (some ⟨1, jpath⟩)], 1, 2⟩) := by
    simp [GetStringUTFChars, St.init, h0]
  by_cases hc : toSizeT w.abi (wrapInt32 ((jargs.elems.length : Int) + 2)) * w.abi.sizeofPtr
      < 2 ^ w.abi.sizeBits ∧ w.callocOk = true
  swap
  · left
    refine ⟨h0, hc, ⟨toSizeT w.abi (wrapInt32 ((jargs.elems.length : Int) + 2)), ?_⟩, ?_⟩ <;>
      simp [startProcess, hG, GetArrayLength, calloc, hc, ReleaseStringUTFChars]
  right
  have hn := nmemb_eq w.abi jargs.elems.length jargs.size_lt hc.1
  refine ⟨h0, hc.2, ?_⟩
  rw [hn] at hc
  obtain ⟨fillEvs, hf1, hf2⟩ := fillArgs_trace w jargs jargs.elems.length 0
    ((List.replicate (jargs.elems.length + 2) none).set 0 (some ⟨1, jpath⟩))
    ⟨[Event.GetStringUTFChars jpath (some ⟨1, jpath⟩),
      Event.GetArrayLength jargs.elems.length,
      Event.calloc (jargs.elems.length + 2) w.abi.sizeofPtr (some 2)], 1, 3⟩
  obtain ⟨F, hF⟩ : ∃ F, F = fillArgs w jargs jargs.elems.length 0
      ((List.replicate (jargs.elems.length + 2) none).set 0 (some ⟨1, jpath⟩),
        ⟨[Event.GetStringUTFChars jpath (some ⟨1, jpath⟩),
          Event.GetArrayLength jargs.elems.length,
          Event.calloc (jargs.elems.length + 2) w.abi.sizeofPtr (some 2)], 1, 3⟩) := ⟨_, rfl⟩
  have hlen : F.1.length = jargs.elems.length + 2 := by
    rw [hF, fillArgs_length]; simp
  have hzero : F.1[0]? = some (some ⟨1, jpath⟩) := by
    rw [hF, fillArgs_getElem?_outside _ _ _ _ _ _ _ (by omega), List.getElem?_set_self (by simp)]
  have hmid : (∀ k, 1 ≤ k → k ≤ jargs.elems.length → w.utfOk k = true) →
      ∀ j, 1 ≤ j → j ≤ jargs.elems.length →
        F.1[j]? = some (some ⟨2 + j, jargs.elems.getD (j - 1) ""⟩) := by
    intro hok j hj1 hj2
    rw [hF, fillArgs_getElem?_inside _ _ _ _ _ _ _ (fun k hk1 hk2 => hok k hk1 (by
      simp only at hk2; omega)) (by omega) (by omega) (by simp; omega)]
    have : 3 + (j - (0 + 1)) = 2 + j := by omega
    simp only [this]
  have hled : (∀ k, 1 ≤ k → k ≤ jargs.elems.length → w.utfOk k = true) →
      ledger F.2.trace [] = some ([1, 2] ++ List.range' 3 jargs.elems.length) := by
    intro hok
    rw [hF]
    exact fillArgs_ledger w jargs jargs.elems.length 0 _ _ [] [1, 2]
      (fun k hk1 hk2 => hok k hk1 (by simp only at hk2; omega))
      (by intro a ha; simp only [List.mem_cons, List.mem_singleton, List.not_mem_nil,
            or_false] at ha; rcases ha with rfl | rfl <;> simp)
      (by simp [ledger, ledgerStep])
  have hrel : ∀ (v : Int) (relEvs : List Event),
      (∀ k, 1 ≤ k → k ≤ jargs.elems.length → w.utfOk k = true) →
      (releaseArgs jargs (F.1.set (jargs.elems.length + 1) none) jargs.elems.length 0
        ⟨F.2.trace ++ [Event.fork v], F.2.utfCalls, F.2.next⟩).trace
          = F.2.trace ++ [Event.fork v] ++ relEvs →
      ledger (F.2.trace ++ [Event.fork v] ++ relEvs) [] = some [1, 2] := by
    intro v relEvs hok hr
    rw [← hr]
    apply releaseArgs_ledger jargs _ jargs.elems.length 0 _ [] [1, 2]
    · intro j hj1 hj2
      refine ⟨jargs.elems.getD (j - 1) "", ?_⟩
      rw [List.getElem?_set_ne (by omega), hmid hok j (by omega) (by omega)]
    · decide
    · simp only []
      rw [ledger_append, hled hok]
      simp [ledger, ledgerStep]
  rw [← hF] at hf1
  simp only [] at hf1
  refine ⟨fillEvs, F.1.set (jargs.elems.length + 1) none, hf2, by simp [hlen], ?_, ?_, ?_, ?_,
    ?_⟩
  · rw [List.getElem?_set_ne (by omega), hzero]
  · rw [List.getElem?_set_self (by omega)]
  · intro hok j hj1 hj2
    rw [List.getElem?_set_ne (by omega), hmid hok j hj1 hj2]
  · intro hok
    rw [← hf1]
    exact hled hok
  · unfold startProcess
    simp only [hG, GetArrayLength, calloc, hn, hc, and_self, if_true, fork, execv, _exit, free,
      ReleaseStringUTFChars, List.singleton_append, List.cons_append, List.nil_append,
      Nat.reduceAdd]
    rw [← hF]
    cases hw : w.fork with
    | child =>
      cases he : w.execvOk with
      | true => left; simp [ForkRet.val, hf1]
      | false => right; left; simp [ForkRet.val, hf1]
    | parent pid =>
      right; right
      have hv : ForkRet.val (.parent pid) ≠ 0 := by
        simp [ForkRet.val]
      obtain ⟨relEvs, hr1, hr2⟩ := releaseArgs_trace jargs
        (F.1.set (jargs.elems.length + 1) none) jargs.elems.length 0
        ⟨F.2.trace ++ [Event.fork (ForkRet.val (.parent pid))], F.2.utfCalls, F.2.next⟩
      refine ⟨hv, ⟨relEvs, hr2, ?_, ?_⟩, ?_⟩
      · simp only [hv, if_false]
        rw [hr1]
        simp [hf1]
      · intro hok
        have := hrel _ relEvs hok hr1
        rw [hf1] at this
        exact this
      · simp [hv]
    | failed =>
      right; right
      have hv : ForkRet.val .failed ≠ 0 := by
        simp [ForkRet.val]
      obtain ⟨relEvs, hr1, hr2⟩ := releaseArgs_trace jargs
        (F.1.set (jargs.elems.length + 1) none) jargs.elems.length 0
        ⟨F.2.trace ++ [Event.fork (ForkRet.val .failed)], F.2.utfCalls, F.2.next⟩
      refine ⟨hv, ⟨relEvs, hr2, ?_, ?_⟩, ?_⟩
      · simp only [hv, if_false]
        rw [hr1]
        simp [hf1]
      · intro hok
        have := hrel _ relEvs hok hr1
        rw [hf1] at this
        exact this
      · simp [hv]

/-! ## Terminate and liveness: theorems -/

theorem ChildTable.lookup_reap (t : ChildTable) (pid : Int) :
    (t.reap pid).lookup pid = none := by
  induction t with
  | nil => rfl
  | cons c t ih =>
    obtain ⟨q, st⟩ := c
    by_cases h : q = pid
    · subst h
      simpa [ChildTable.reap] using ih
    · have h2 : (pid == q) = false := by simpa using fun e => h e.symm
      simp only [ChildTable.reap] at ih
      simp [ChildTable.reap, h, List.lookup, h2, ih]

/-- C5: for an identifier `pid <= 0`, `killProcess` returns the process state
unchanged (same kernel state, no call added to the log: neither `kill` nor
`waitpid`), and `isProcessAlive` returns false with the state unchanged (no
`waitpid`); whatever the identifier, every `kill` call that `killProcess`
logs has a positive pid. -/
theorem nonpositive_pid_is_noop {σ : Type} (sys : OS σ) (pid : Int) (p : Proc σ)
    (h : pid ≤ 0) :
    killProcess sys pid p = p ∧ isProcessAlive sys pid p = (false, p) ∧
      ∀ (pid0 : Int) (os : σ) (q sig r : Int),
        Event.kill q sig r ∈ (killProcess sys pid0 ⟨os, []⟩).trace → 0 < q := by
  refine ⟨?_, ?_, ?_⟩
  · have : ¬ pid > 0 := by omega
    simp [killProcess, this]
  · simp [isProcessAlive, h, JNI_FALSE]
  · intro pid0 os q sig r hmem
    by_cases h0 : pid0 > 0
    · simp [killProcess, h0] at hmem
      omega
    · simp [killProcess, h0] at hmem

theorem nonpositive_pid_is_noop_witness :
    ((-1 : Int) ≤ 0) ∧
      (killProcess childOS (-1) ⟨tableEx, []⟩ = ⟨tableEx, []⟩ ∧
        isProcessAlive childOS (-1) ⟨tableEx, []⟩ = (false, ⟨tableEx, []⟩) ∧
        ∀ (pid0 : Int) (os : ChildTable) (q sig r : Int),
          Event.kill q sig r ∈ (killProcess childOS pid0 ⟨os, []⟩).trace → 0 < q) :=
  ⟨by decide, nonpositive_pid_is_noop childOS (-1) ⟨tableEx, []⟩ (by decide)⟩

/-- C6: for `pid > 0`, `isProcessAlive` adds exactly one call to the log, a
`waitpid` on that pid with the option `WNOHANG`, moves the kernel to the state
that call leaves, and returns true if and only if the call returned 0; it
returns false when the call returned a positive value and when it returned a
negative one. -/
theorem isProcessAlive_single_query {σ : Type} (sys : OS σ) (pid : Int) (p : Proc σ)
    (h : 0 < pid) :
    (isProcessAlive sys pid p).2.trace
        = p.trace ++ [Event.waitpid pid WNOHANG (sys.waitpid p.os pid WNOHANG).1] ∧
      (isProcessAlive sys pid p).2.os = (sys.waitpid p.os pid WNOHANG).2 ∧
      ((isProcessAlive sys pid p).1 = true ↔ (sys.waitpid p.os pid WNOHANG).1 = 0) ∧
      (0 < (sys.waitpid p.os pid WNOHANG).1 → (isProcessAlive sys pid p).1 = false) ∧
      ((sys.waitpid p.os pid WNOHANG).1 < 0 → (isProcessAlive sys pid p).1 = false) := by
  have hn : ¬ pid ≤ 0 := by omega
  by_cases h0 : (sys.waitpid p.os pid WNOHANG).1 = 0
  · simp [isProcessAlive, hn, h0, JNI_TRUE]
  · simp [isProcessAlive, hn, h0, JNI_FALSE]

theorem isProcessAlive_single_query_witness :
    ((0 : Int) < 8) ∧
      ((isProcessAlive childOS 8 ⟨tableEx, []⟩).2.trace
          = [] ++ [Event.waitpid 8 WNOHANG (childOS.waitpid tableEx 8 WNOHANG).1] ∧
        (isProcessAlive childOS 8 ⟨tableEx, []⟩).2.os = (childOS.waitpid tableEx 8 WNOHANG).2 ∧
        ((isProcessAlive childOS 8 ⟨tableEx, []⟩).1 = true ↔
          (childOS.waitpid tableEx 8 WNOHANG).1 = 0) ∧
        (0 < (childOS.waitpid tableEx 8 WNOHANG).1 →
          (isProcessAlive childOS 8 ⟨tableEx, []⟩).1 = false) ∧
        ((childOS.waitpid tableEx 8 WNOHANG).1 < 0 →
          (isProcessAlive childOS 8 ⟨tableEx, []⟩).1 = false)) :=
  ⟨by decide, isProcessAlive_single_query childOS 8 ⟨tableEx, []⟩ (by decide)⟩

/-- C7: on the child table, for a positive pid that denotes an exited child not
yet reaped, the first `isProcessAlive` returns false and removes the child from
the table, and an immediately following second `isProcessAlive` on the same pid
also returns false and leaves the table unchanged. -/
theorem isProcessAlive_twice_on_exited (t : ChildTable) (pid status : Int)
    (log : List Event) (hpos : 0 < pid) (hz : t.lookup pid = some (.zombie status)) :
    (isProcessAlive childOS pid ⟨t, log⟩).1 = false ∧
      (isProcessAlive childOS pid ⟨t, log⟩).2.os = t.reap pid ∧
      ((isProcessAlive childOS pid ⟨t, log⟩).2.os).lookup pid = none ∧
      (isProcessAlive childOS pid (isProcessAlive childOS pid ⟨t, log⟩).2).1 = false ∧
      (isProcessAlive childOS pid (isProcessAlive childOS pid ⟨t, log⟩).2).2.os
        = (isProcessAlive childOS pid ⟨t, log⟩).2.os := by
  have hn : ¬ pid ≤ 0 := by omega
  have hne : ¬ pid = 0 := by omega
  have h1 : isProcessAlive childOS pid ⟨t, log⟩
      = (false, ⟨t.reap pid, log ++ [Event.waitpid pid WNOHANG pid]⟩) := by
    simp [isProcessAlive, hn, childOS, ChildTable.waitpid, hz, hne, JNI_FALSE]
  have h2 : isProcessAlive childOS pid ⟨t.reap pid, log ++ [Event.waitpid pid WNOHANG pid]⟩
      = (false, ⟨t.reap pid,
          log ++ [Event.waitpid pid WNOHANG pid] ++ [Event.waitpid pid WNOHANG (-1)]⟩) := by
    simp [isProcessAlive, hn, childOS, ChildTable.waitpid, ChildTable.lookup_reap, JNI_FALSE]
  rw [h1]
  simp [h2, ChildTable.lookup_reap]

theorem isProcessAlive_twice_on_exited_witness :
    ((0 : Int) < 7 ∧ tableEx.lookup 7 = some (.zombie 0)) ∧
      ((isProcessAlive childOS 7 ⟨tableEx, []⟩).1 = false ∧
        (isProcessAlive childOS 7 ⟨tableEx, []⟩).2.os = tableEx.reap 7 ∧
        ((isProcessAlive childOS 7 ⟨tableEx, []⟩).2.os).lookup 7 = none ∧
        (isProcessAlive childOS 7 (isProcessAlive childOS 7 ⟨tableEx, []⟩).2).1 = false ∧
        (isProcessAlive childOS 7 (isProcessAlive childOS 7 ⟨tableEx, []⟩).2).2.os
          = (isProcessAlive childOS 7 ⟨tableEx, []⟩).2.os) :=
  ⟨⟨by decide, by decide⟩,
    isProcessAlive_twice_on_exited tableEx 7 0 [] (by decide) (by decide)⟩

/-- C8: for `pid > 0`, `killProcess` adds exactly two calls to the log, in this
order: `kill` on that pid with `SIGTERM` (which is not `SIGKILL`), then
`waitpid` on that pid with `WNOHANG`, issued from the kernel state the `kill`
left and whatever `kill` returned; the kernel ends in the state that `waitpid`
leaves, and no value is returned (the result is the process state only). -/
theorem killProcess_signal_then_query {σ : Type} (sys : OS σ) (pid : Int) (p : Proc σ)
    (h : 0 < pid) :
    killProcess sys pid p
        = ⟨(sys.waitpid (sys.kill p.os pid SIGTERM).2 pid WNOHANG).2,
            p.trace ++ [Event.kill pid SIGTERM (sys.kill p.os pid SIGTERM).1,
              Event.waitpid pid WNOHANG
                (sys.waitpid (sys.kill p.os pid SIGTERM).2 pid WNOHANG).1]⟩ ∧
      SIGTERM ≠ SIGKILL := by
  have hp : pid > 0 := h
  refine ⟨?_, by decide⟩
  simp [killProcess, hp]

theorem killProcess_signal_then_query_witness :
    ((0 : Int) < 8) ∧
      (killProcess childOS 8 ⟨tableEx, []⟩
          = ⟨(childOS.waitpid (childOS.kill tableEx 8 SIGTERM).2 8 WNOHANG).2,
              [] ++ [Event.kill 8 SIGTERM (childOS.kill tableEx 8 SIGTERM).1,
                Event.waitpid 8 WNOHANG
                  (childOS.waitpid (childOS.kill tableEx 8 SIGTERM).2 8 WNOHANG).1]⟩ ∧
        SIGTERM ≠ SIGKILL) :=
  ⟨by decide, killProcess_signal_then_query childOS 8 ⟨tableEx, []⟩ (by decide)⟩

/-! ## `startProcess`: observations on the log -/

theorem forkRets_append (a b : List Event) : forkRets (a ++ b) = forkRets a ++ forkRets b := by
  simp [forkRets, List.filterMap_append]

theorem Event.forkRetOf_marshal (e : Event) (h : e.isMarshal = true) : e.forkRetOf = none := by
  cases e <;> first | rfl | simp [Event.isMarshal] at h

theorem Event.execvOf_marshal (e : Event) (h : e.isMarshal = true) : e.execvOf = none := by
  cases e <;> first | rfl | simp [Event.isMarshal] at h

theorem forkRets_marshal (l : List Event) (h : ∀ e ∈ l, Event.isMarshal e = true) :
    forkRets l = [] := by
  simp only [forkRets, List.filterMap_eq_nil_iff]
  exact fun e he => e.forkRetOf_marshal (h e he)

theorem execvCalls_append (a b : List Event) :
    execvCalls (a ++ b) = execvCalls a ++ execvCalls b := by
  simp [execvCalls, List.filterMap_append]

theorem execvCalls_marshal (l : List Event) (h : ∀ e ∈ l, Event.isMarshal e = true) :
    execvCalls l = [] := by
  simp only [execvCalls, List.filterMap_eq_nil_iff]
  exact fun e he => e.execvOf_marshal (h e he)

theorem ForkRet.val_cases (f : ForkRet) : f.val = 0 ∨ 0 < f.val ∨ f.val = -1 := by
  cases f with
  | child => left; rfl
  | parent pid => right; left; simp [ForkRet.val]
  | failed => right; right; rfl

theorem receivedArgs_built (p : String) (l : List String) :
    receivedArgs (some p :: l.map some ++ [none]) = l := by
  have h : ∀ l : List String,
      ((l.map some ++ [none]).takeWhile Option.isSome).filterMap id = l := by
    intro l
    induction l with
    | nil => simp [List.takeWhile]
    | cons a l ih => simp [List.takeWhile]
  simp [receivedArgs]

/-- The text of an argv vector whose entries are the path, then the converted
arguments, then NULL. -/
theorem argvText_built (jpath : String) (elems : List String) (argv : List (Option CStr))
    (hlen : argv.length = elems.length + 2)
    (h0 : argv[0]? = some (some ⟨1, jpath⟩))
    (hlast : argv[elems.length + 1]? = some none)
    (hmid : ∀ j, 1 ≤ j → j ≤ elems.length →
      argv[j]? = some (some ⟨2 + j, elems.getD (j - 1) ""⟩)) :
    argvText argv = some jpath :: elems.map some ++ [none] := by
  apply List.ext_getElem?
  intro j
  simp only [argvText, List.getElem?_map]
  rcases Nat.eq_zero_or_pos j with hj | hj
  · subst hj; simp [h0]
  · by_cases hj2 : j ≤ elems.length
    · rw [hmid j hj hj2]
      obtain ⟨i, rfl⟩ : ∃ i, j = i + 1 := ⟨j - 1, by omega⟩
      have hi : i < elems.length := by omega
      simp [List.getElem?_append_left, hi, List.getD_eq_getElem?_getD,
        List.getElem?_eq_getElem hi]
    · by_cases hj3 : j = elems.length + 1
      · subst hj3
        simp [hlast, List.getElem?_append_right]
      · have h1 : argv[j]? = none := List.getElem?_eq_none (by omega)
        obtain ⟨i, rfl⟩ : ∃ i, j = i + 1 := ⟨j - 1, by omega⟩
        rw [h1]
        simp only [Option.map_none', List.getElem?_cons_succ]
        symm
        apply List.getElem?_eq_none
        simp
        omega


/-! ## `startProcess`: the claims -/

/-- C1: when the path and every argument string are read successfully, every
`execv` call of `startProcess` receives as first argument the converted path
and as argv a vector of exactly `n + 2` entries whose entry 0 is that same
path pointer, whose entry `i + 1` is a buffer holding the whole of `args[i]`
for every `i < n`, whose entry `n + 1` is NULL and which has no NULL at any
index up to `n`; so the text of the vector is `[path, args[0], ..., NULL]` and
the program receives exactly `args`.  The call is made whenever the block can
be allocated and the followed process is the child. -/
theorem startProcess_argv (w : World) (jpath : String) (jargs : JObjectArray)
    (hok : ∀ k, k ≤ jargs.elems.length → w.utfOk k = true) :
    (∀ p argv, (p, argv) ∈ execvCalls (startProcess w jpath jargs).trace →
      p.chars = jpath ∧
      argv.length = jargs.elems.length + 2 ∧
      argv[0]? = some (some p) ∧
      (∀ i (hi : i < jargs.elems.length),
        ∃ a, argv[i + 1]? = some (some ⟨a, jargs.elems[i]⟩)) ∧
      argv[jargs.elems.length + 1]? = some none ∧
      (∀ j, j ≤ jargs.elems.length → argv[j]? ≠ some none) ∧
      argvText argv = some jpath :: jargs.elems.map some ++ [none] ∧
      receivedArgs (argvText argv) = jargs.elems) ∧
    (jargs.elems.length + 2 < 2 ^ 31 →
      (jargs.elems.length + 2) * w.abi.sizeofPtr < 2 ^ w.abi.sizeBits → w.callocOk = true →
      w.fork = .child →
      ∃ p argv, execvCalls (startProcess w jpath jargs).trace = [(p, argv)]) := by
  have hp0 : w.utfOk 0 = true := hok 0 (Nat.zero_le _)
  rcases startProcess_run w jpath jargs with ⟨h0, _, _⟩ | ⟨_, hfail, ⟨nmemb, ht⟩, _⟩ |
    ⟨_, _, fillEvs, argv, hfill, hlen, hzero, hlast, hmid, _, hrun⟩
  · rw [hp0] at h0; cases h0
  · refine ⟨?_, ?_⟩
    · intro p a hmem
      simp [ht, execvCalls, Event.execvOf] at hmem
    · intro hsmall hsz hc
      rw [nmemb_eq_of_small w.abi _ hsmall] at hfail
      exact absurd ⟨hsz, hc⟩ hfail
  · have hmid2 := hmid (fun k _ hk => hok k hk)
    have htext := argvText_built jpath jargs.elems argv hlen hzero hlast hmid2
    have hex : execvCalls
        ([Event.GetStringUTFChars jpath (some ⟨1, jpath⟩),
          Event.GetArrayLength jargs.elems.length,
          Event.calloc (jargs.elems.length + 2) w.abi.sizeofPtr (some 2)] ++ fillEvs) = [] := by
      rw [execvCalls_append, execvCalls_marshal fillEvs hfill]
      simp [execvCalls, Event.execvOf]
    have hfacts : ∀ p a, (p, a) = ((⟨1, jpath⟩ : CStr), argv) →
        p.chars = jpath ∧
        a.length = jargs.elems.length + 2 ∧
        a[0]? = some (some p) ∧
        (∀ i (hi : i < jargs.elems.length),
          ∃ b, a[i + 1]? = some (some ⟨b, jargs.elems[i]⟩)) ∧
        a[jargs.elems.length + 1]? = some none ∧
        (∀ j, j ≤ jargs.elems.length → a[j]? ≠ some none) ∧
        argvText a = some jpath :: jargs.elems.map some ++ [none] ∧
        receivedArgs (argvText a) = jargs.elems := by
      intro p a hpa
      obtain ⟨rfl, rfl⟩ := Prod.mk.inj hpa
      refine ⟨rfl, hlen, hzero, ?_, hlast, ?_, htext, ?_⟩
      · intro i hi
        refine ⟨2 + (i + 1), ?_⟩
        rw [hmid2 (i + 1) (by omega) (by omega)]
        simp [List.getD_eq_getElem?_getD, List.getElem?_eq_getElem hi]
      · intro j hj
        rcases Nat.eq_zero_or_pos j with h | h
        · subst h; rw [hzero]; simp
        · rw [hmid2 j h hj]; simp
      · rw [htext, receivedArgs_built]
    rcases hrun with ⟨hch, _, ht, _⟩ | ⟨hch, _, ht, _⟩ | ⟨hv, ⟨relEvs, hrel, ht, _⟩, _⟩
    · have hcalls : execvCalls (startProcess w jpath jargs).trace = [(⟨1, jpath⟩, argv)] := by
        rw [ht, execvCalls_append, hex]
        simp [execvCalls, Event.execvOf]
      refine ⟨?_, fun _ _ _ _ => ⟨_, _, hcalls⟩⟩
      intro p a hmem
      rw [hcalls, List.mem_singleton] at hmem
      exact hfacts p a hmem
    · have hcalls : execvCalls (startProcess w jpath jargs).trace = [(⟨1, jpath⟩, argv)] := by
        rw [ht, execvCalls_append, hex]
        simp [execvCalls, Event.execvOf]
      refine ⟨?_, fun _ _ _ _ => ⟨_, _, hcalls⟩⟩
      intro p a hmem
      rw [hcalls, List.mem_singleton] at hmem
      exact hfacts p a hmem
    · have hcalls : execvCalls (startProcess w jpath jargs).trace = [] := by
        rw [ht, execvCalls_append, execvCalls_append, execvCalls_append, hex,
          execvCalls_marshal relEvs hrel]
        simp [execvCalls, Event.execvOf]
      refine ⟨?_, ?_⟩
      · intro p a hmem
        rw [hcalls] at hmem
        cases hmem
      · intro _ _ _ hch
        rw [hch] at hv
        exact absurd rfl hv


theorem startProcess_argv_witness :
    (∀ k, k ≤ argsAB.elems.length → (worldOk .child).utfOk k = true) ∧
    ((∀ p argv, (p, argv) ∈ execvCalls (startProcess (worldOk .child) "/bin/x" argsAB).trace →
        p.chars = "/bin/x" ∧
        argv.length = argsAB.elems.length + 2 ∧
        argv[0]? = some (some p) ∧
        (∀ i (hi : i < argsAB.elems.length),
          ∃ a, argv[i + 1]? = some (some ⟨a, argsAB.elems[i]⟩)) ∧
        argv[argsAB.elems.length + 1]? = some none ∧
        (∀ j, j ≤ argsAB.elems.length → argv[j]? ≠ some none) ∧
        argvText argv = some "/bin/x" :: argsAB.elems.map some ++ [none] ∧
        receivedArgs (argvText argv) = argsAB.elems) ∧
      (argsAB.elems.length + 2 < 2 ^ 31 →
        (argsAB.elems.length + 2) * (worldOk .child).abi.sizeofPtr
          < 2 ^ (worldOk .child).abi.sizeBits →
        (worldOk .child).callocOk = true → (worldOk .child).fork = .child →
        ∃ p argv, execvCalls (startProcess (worldOk .child) "/bin/x" argsAB).trace
          = [(p, argv)])) ∧
    execvCalls (startProcess (worldOk .child) "/bin/x" argsAB).trace
      = [(⟨1, "/bin/x"⟩, [some ⟨1, "/bin/x"⟩, some ⟨3, "a"⟩, some ⟨4, "b c"⟩, none])] ∧
    receivedArgs (argvText [some ⟨1, "/bin/x"⟩, some ⟨3, "a"⟩, some ⟨4, "b c"⟩, none])
      = ["a", "b c"] :=
  ⟨fun _ _ => rfl, startProcess_argv (worldOk .child) "/bin/x" argsAB (fun _ _ => rfl),
    by decide, by decide⟩

/-- C2: in every run of `startProcess` the log holds at most one `fork` call;
when the function returns a value `v` and `fork` was called, `v` is what that
call returned; a positive `v` means exactly one child was created; a `v` that
is not positive is `-1` and no child was created. -/
theorem startProcess_fork_once (w : World) (jpath : String) (jargs : JObjectArray) :
    (forkRets (startProcess w jpath jargs).trace).length ≤ 1 ∧
    ∀ v, (startProcess w jpath jargs).outcome = .returned v →
      (∀ r ∈ forkRets (startProcess w jpath jargs).trace, v = r) ∧
      (0 < v → children (startProcess w jpath jargs).trace = 1) ∧
      (¬ 0 < v → v = -1 ∧ children (startProcess w jpath jargs).trace = 0) := by
  rcases startProcess_run w jpath jargs with ⟨_, ht, ho⟩ | ⟨_, _, ⟨nmemb, ht⟩, ho⟩ |
    ⟨_, _, fillEvs, argv, hfill, _, _, _, _, _, hrun⟩
  · have hf : forkRets (startProcess w jpath jargs).trace = [] := by
      rw [ht]; simp [forkRets, Event.forkRetOf]
    rw [ho]
    simp [hf, children]
  · have hf : forkRets (startProcess w jpath jargs).trace = [] := by
      rw [ht]; simp [forkRets, Event.forkRetOf]
    rw [ho]
    simp [hf, children]
  · have hpre : forkRets
        ([Event.GetStringUTFChars jpath (some ⟨1, jpath⟩),
          Event.GetArrayLength jargs.elems.length,
          Event.calloc (jargs.elems.length + 2) w.abi.sizeofPtr (some 2)] ++ fillEvs) = [] := by
      rw [forkRets_append, forkRets_marshal fillEvs hfill]
      simp [forkRets, Event.forkRetOf]
    rcases hrun with ⟨_, _, ht, ho⟩ | ⟨_, _, ht, ho⟩ | ⟨hv, ⟨relEvs, hrel, ht, _⟩, ho⟩
    · have hf : forkRets (startProcess w jpath jargs).trace = [0] := by
        rw [ht, forkRets_append, hpre]; simp [forkRets, Event.forkRetOf]
      rw [ho]; simp [hf]
    · have hf : forkRets (startProcess w jpath jargs).trace = [0] := by
        rw [ht, forkRets_append, hpre]; simp [forkRets, Event.forkRetOf]
      rw [ho]; simp [hf]
    · have hf : forkRets (startProcess w jpath jargs).trace = [w.fork.val] := by
        rw [ht, forkRets_append, forkRets_append, forkRets_append, hpre,
          forkRets_marshal relEvs hrel]
        simp [forkRets, Event.forkRetOf]
      rw [ho, hf]
      refine ⟨by simp, ?_⟩
      intro v hv2
      obtain rfl : w.fork.val = v := by simpa using hv2
      refine ⟨by simp, ?_, ?_⟩
      · intro hpos; simp [children, hf, hpos]
      · intro hneg
        rcases ForkRet.val_cases w.fork with h | h | h
        · exact absurd h hv
        · exact absurd h hneg
        · exact ⟨h, by simp [children, hf, hneg]⟩

/-- C3, evaluated where the conversion of an argument string fails: with path
`/bin/x`, arguments `["a"]` and a NULL result for the conversion of `"a"`,
`startProcess` does not return `-1`: it calls `fork` once with a vector whose
entry 1 is NULL, a child is created and its pid 42 is returned. -/
theorem startProcess_forks_after_unreadable_arg :
    Event.GetStringUTFChars "a" none
        ∈ (startProcess (worldArgFails (.parent 42)) "/bin/x" argsA).trace ∧
      (startProcess (worldArgFails (.parent 42)) "/bin/x" argsA).outcome = .returned 42 ∧
      forkRets (startProcess (worldArgFails (.parent 42)) "/bin/x" argsA).trace = [42] ∧
      children (startProcess (worldArgFails (.parent 42)) "/bin/x" argsA).trace = 1 ∧
      execvCalls (startProcess (worldArgFails .child) "/bin/x" argsA).trace
        = [(⟨1, "/bin/x"⟩, [some ⟨1, "/bin/x"⟩, none, none])] := by
  decide

/-- C4 fails for a path that is empty but readable: with the empty path and no
arguments `startProcess` calls `fork` and returns the pid 42 of the child, so
it neither returns a negative value nor leaves `fork` uncalled. -/
theorem startProcess_empty_path_forks :
    (startProcess (worldOk (.parent 42)) "" argsNone).outcome = .returned 42 ∧
      forkRets (startProcess (worldOk (.parent 42)) "" argsNone).trace = [42] ∧
      ¬ ((∃ v, v < 0 ∧ (startProcess (worldOk (.parent 42)) "" argsNone).outcome = .returned v) ∧
        forkRets (startProcess (worldOk (.parent 42)) "" argsNone).trace = []) :=
  ⟨by decide, by decide, fun h => absurd h.2 (by decide)⟩

/-- C4 as amended: for every argument sequence and every path string, empty or
not, whose conversion fails, `startProcess` returns `-1` after that single
JNI call and `fork` is not invoked. -/
theorem startProcess_unreadable_path (w : World) (jpath : String) (jargs : JObjectArray)
    (h : w.utfOk 0 = false) :
    (startProcess w jpath jargs).outcome = .returned (-1) ∧
      (startProcess w jpath jargs).trace = [Event.GetStringUTFChars jpath none] ∧
      forkRets (startProcess w jpath jargs).trace = [] ∧
      children (startProcess w jpath jargs).trace = 0 := by
  rcases startProcess_run w jpath jargs with ⟨_, ht, ho⟩ | ⟨h1, _⟩ | ⟨h1, _⟩
  · refine ⟨ho, ht, ?_, ?_⟩ <;> rw [ht] <;> simp [children, forkRets, Event.forkRetOf]
  · rw [h] at h1; cases h1
  · rw [h] at h1; cases h1

theorem startProcess_unreadable_path_witness :
    ((worldPathFails (.parent 42)).utfOk 0 = false) ∧
      ((startProcess (worldPathFails (.parent 42)) "" argsAB).outcome = .returned (-1) ∧
        (startProcess (worldPathFails (.parent 42)) "" argsAB).trace
          = [Event.GetStringUTFChars "" none] ∧
        forkRets (startProcess (worldPathFails (.parent 42)) "" argsAB).trace = [] ∧
        children (startProcess (worldPathFails (.parent 42)) "" argsAB).trace = 0) :=
  ⟨rfl, startProcess_unreadable_path (worldPathFails (.parent 42)) "" argsAB rfl⟩

/-- C9: in the child image, that is after a `fork` call that returned 0, the
rest of the log of `startProcess` is the single call `execv(path, argv)`, on
the converted path, when the image is replaced, and that call followed by
`_exit(127)` when `execv` returned; in both cases the function does not return
to its caller, and no other call (none on a file descriptor, no release, no
`free`) is made after the `fork`. -/
theorem startProcess_child_only_execs (w : World) (jpath : String) (jargs : JObjectArray)
    (pre post : List Event)
    (h : (startProcess w jpath jargs).trace = pre ++ Event.fork 0 :: post) :
    (∃ argv, (post = [Event.execv ⟨1, jpath⟩ argv] ∧
          (startProcess w jpath jargs).outcome = .replaced) ∨
        (post = [Event.execv ⟨1, jpath⟩ argv, Event._exit 127] ∧
          (startProcess w jpath jargs).outcome = .exited 127)) ∧
      (∀ v, (startProcess w jpath jargs).outcome ≠ .returned v) ∧
      (∀ e ∈ pre, e.forkRetOf = none) := by
  have hfr : forkRets (startProcess w jpath jargs).trace
      = forkRets pre ++ 0 :: forkRets post := by
    rw [h, forkRets_append]; simp [forkRets, Event.forkRetOf]
  rcases startProcess_run w jpath jargs with ⟨_, ht, _⟩ | ⟨_, _, ⟨nmemb, ht⟩, _⟩ |
    ⟨_, _, fillEvs, argv, hfill, _, _, _, _, _, hrun⟩
  · rw [ht] at hfr
    have := congrArg List.length hfr
    simp [forkRets, Event.forkRetOf] at this
    omega
  · rw [ht] at hfr
    have := congrArg List.length hfr
    simp [forkRets, Event.forkRetOf] at this
    omega
  · have hpre : ∀ e ∈ [Event.GetStringUTFChars jpath (some ⟨1, jpath⟩),
          Event.GetArrayLength jargs.elems.length,
          Event.calloc (jargs.elems.length + 2) w.abi.sizeofPtr (some 2)] ++ fillEvs,
        e.forkRetOf = none := by
      intro e he
      rcases List.mem_append.1 he with he | he
      · simp only [List.mem_cons, List.mem_singleton, List.not_mem_nil, or_false] at he
        rcases he with rfl | rfl | rfl <;> rfl
      · exact e.forkRetOf_marshal (hfill e he)
    have hnot : Event.fork 0 ∉ [Event.GetStringUTFChars jpath (some ⟨1, jpath⟩),
          Event.GetArrayLength jargs.elems.length,
          Event.calloc (jargs.elems.length + 2) w.abi.sizeofPtr (some 2)] ++ fillEvs := by
      intro hmem
      have := hpre _ hmem
      simp [Event.forkRetOf] at this
    rcases hrun with ⟨_, _, ht, ho⟩ | ⟨_, _, ht, ho⟩ | ⟨hv, ⟨relEvs, hrel, ht, _⟩, ho⟩
    · rw [ht] at h
      have hsplit := (List.append_cons_inj_of_not_mem hnot (by simp)).1 h
      obtain ⟨h1, _, h2⟩ := hsplit
      refine ⟨⟨argv, Or.inl ⟨h2.symm, ho⟩⟩, ?_, ?_⟩
      · intro v; rw [ho]; simp
      · intro e he; rw [← h1] at he; exact hpre e he
    · rw [ht] at h
      have hsplit := (List.append_cons_inj_of_not_mem hnot (by simp)).1 h
      obtain ⟨h1, _, h2⟩ := hsplit
      refine ⟨⟨argv, Or.inr ⟨h2.symm, ho⟩⟩, ?_, ?_⟩
      · intro v; rw [ho]; simp
      · intro e he; rw [← h1] at he; exact hpre e he
    · exfalso
      have hf : forkRets (startProcess w jpath jargs).trace = [w.fork.val] := by
        have hp : forkRets
            ([Event.GetStringUTFChars jpath (some ⟨1, jpath⟩),
              Event.GetArrayLength jargs.elems.length,
              Event.calloc (jargs.elems.length + 2) w.abi.sizeofPtr (some 2)] ++ fillEvs)
            = [] := by
          rw [forkRets_append, forkRets_marshal fillEvs hfill]
          simp [forkRets, Event.forkRetOf]
        rw [ht, forkRets_append, forkRets_append, forkRets_append, hp,
          forkRets_marshal relEvs hrel]
        simp [forkRets, Event.forkRetOf]
      rw [hf] at hfr
      have hmem : (0 : Int) ∈ [w.fork.val] := by rw [hfr]; simp
      simp at hmem
      exact hv hmem.symm

theorem startProcess_child_only_execs_witness :
    ((startProcess (worldOk .child) "/bin/x" argsA).trace
        = [Event.GetStringUTFChars "/bin/x" (some ⟨1, "/bin/x"⟩), Event.GetArrayLength 1,
            Event.calloc 3 8 (some 2), Event.GetObjectArrayElement 0,
            Event.GetStringUTFChars "a" (some ⟨3, "a"⟩)]
          ++ Event.fork 0 ::
            [Event.execv ⟨1, "/bin/x"⟩ [some ⟨1, "/bin/x"⟩, some ⟨3, "a"⟩, none],
              Event._exit 127]) ∧
      ((∃ argv, ([Event.execv ⟨1, "/bin/x"⟩ [some ⟨1, "/bin/x"⟩, some ⟨3, "a"⟩, none],
              Event._exit 127] = [Event.execv ⟨1, "/bin/x"⟩ argv] ∧
            (startProcess (worldOk .child) "/bin/x" argsA).outcome = .replaced) ∨
          ([Event.execv ⟨1, "/bin/x"⟩ [some ⟨1, "/bin/x"⟩, some ⟨3, "a"⟩, none],
              Event._exit 127] = [Event.execv ⟨1, "/bin/x"⟩ argv, Event._exit 127] ∧
            (startProcess (worldOk .child) "/bin/x" argsA).outcome = .exited 127)) ∧
        (∀ v, (startProcess (worldOk .child) "/bin/x" argsA).outcome ≠ .returned v) ∧
        (∀ e ∈ [Event.GetStringUTFChars "/bin/x" (some ⟨1, "/bin/x"⟩), Event.GetArrayLength 1,
            Event.calloc 3 8 (some 2), Event.GetObjectArrayElement 0,
            Event.GetStringUTFChars "a" (some ⟨3, "a"⟩)], e.forkRetOf = none)) :=
  ⟨by decide, startProcess_child_only_execs (worldOk .child) "/bin/x" argsA _ _ (by decide)⟩

/-- C10, evaluated where the conversion of an argument string fails: with path
`/bin/x`, arguments `["a"]` and a NULL result for the conversion of `"a"`,
`startProcess` returns 42 after calling `ReleaseStringUTFChars` on NULL for
`"a"`, a release for a string that was not acquired, so the log does not
respect the acquire/release discipline. -/
theorem startProcess_releases_unacquired_arg :
    (startProcess (worldArgFails (.parent 42)) "/bin/x" argsA).outcome = .returned 42 ∧
      (startProcess (worldArgFails (.parent 42)) "/bin/x" argsA).trace
        = [Event.GetStringUTFChars "/bin/x" (some ⟨1, "/bin/x"⟩), Event.GetArrayLength 1,
            Event.calloc 3 8 (some 2), Event.GetObjectArrayElement 0,
            Event.GetStringUTFChars "a" none, Event.fork 42, Event.GetObjectArrayElement 0,
            Event.ReleaseStringUTFChars "a" none, Event.free 2,
            Event.ReleaseStringUTFChars "/bin/x" (some ⟨1, "/bin/x"⟩)] ∧
      balanced (startProcess (worldArgFails (.parent 42)) "/bin/x" argsA).trace = false := by
  decide

/-- Complement to the evaluation above: when every argument string is read
successfully, every run of `startProcess` that returns to its caller (path
unreadable, allocation failure, `fork` failure, `fork` success) has released
each buffer it acquired exactly once, and nothing else. -/
theorem startProcess_balanced_when_args_read (w : World) (jpath : String)
    (jargs : JObjectArray)
    (hok : ∀ k, 1 ≤ k → k ≤ jargs.elems.length → w.utfOk k = true) (v : Int)
    (hret : (startProcess w jpath jargs).outcome = .returned v) :
    balanced (startProcess w jpath jargs).trace = true := by
  rcases startProcess_run w jpath jargs with ⟨_, ht, _⟩ | ⟨_, _, ⟨nmemb, ht⟩, _⟩ |
    ⟨_, _, fillEvs, argv, _, _, _, _, _, _, hrun⟩
  · rw [ht]; simp [balanced, ledger, ledgerStep]
  · rw [ht]; simp [balanced, ledger, ledgerStep]
  · rcases hrun with ⟨_, _, _, ho⟩ | ⟨_, _, _, ho⟩ | ⟨_, ⟨relEvs, _, ht, hled⟩, _⟩
    · rw [ho] at hret; cases hret
    · rw [ho] at hret; cases hret
    · rw [ht]
      simp only [balanced]
      rw [ledger_append, hled hok]
      simp [ledger, ledgerStep]

theorem startProcess_balanced_when_args_read_witness :
    (∀ k, 1 ≤ k → k ≤ argsAB.elems.length → (worldOk (.parent 42)).utfOk k = true) ∧
      (startProcess (worldOk (.parent 42)) "/bin/x" argsAB).outcome = .returned 42 ∧
      balanced (startProcess (worldOk (.parent 42)) "/bin/x" argsAB).trace = true :=
  ⟨fun _ _ _ => rfl, by decide,
    startProcess_balanced_when_args_read (worldOk (.parent 42)) "/bin/x" argsAB
      (fun _ _ _ => rfl) 42 (by decide)⟩

end NativeHelper
